import Mathlib

/-
Verification of the selective document query engine of pdf-agent-mcp
(src/index.ts): the page-range parser, the search-pattern compiler, the
bounded per-page matcher loop, the two search coordinators, and the
outline normalizer.

Conventions of the embedding:
- JS strings are modelled as `List Char` (one entry per UTF-16 code unit;
  all inputs of interest are ASCII, where the two notions agree).  String
  entry points convert with `String.toList`.
- JS exceptions are modelled with `Except String`.
- The external document backend (file reading, PDF.js text extraction) is
  modelled as oracle parameters passed to the coordinators, matching the
  interface the code calls: per-page extraction yields a plain string
  (extractTextNative catches per-page failures and yields an empty string),
  and the bounded matcher call on one page either yields a match list or a
  failure message (timeout or match-ceiling).
- The wall-clock timeout race of searchWithTimeout is not part of the
  shallow embedding; the scanning loop it wraps is modelled exactly,
  with fuel standing for the number of loop iterations executed.
-/

namespace PdfAgent

instance exceptDecEq {ε α : Type} [DecidableEq ε] [DecidableEq α] : DecidableEq (Except ε α) := fun a b =>
  match a, b with
  | .ok x, .ok y =>
    if h : x = y then isTrue (congrArg _ h) else isFalse (fun hh => h (Except.ok.inj hh))
  | .error x, .error y =>
    if h : x = y then isTrue (congrArg _ h) else isFalse (fun hh => h (Except.error.inj hh))
  | .ok _, .error _ => isFalse (fun hh => Except.noConfusion hh)
  | .error _, .ok _ => isFalse (fun hh => Except.noConfusion hh)

/-- JS `String.prototype.trim`: strip leading and trailing whitespace. -/
def trimChars (cs : List Char) : List Char :=
  ((cs.dropWhile Char.isWhitespace).reverse.dropWhile Char.isWhitespace).reverse

/-- JS `String.prototype.split` with a single-character separator:
`"".split(c) = [""]`, separators delimit (possibly empty) fields. -/
def splitChars (sep : Char) : List Char → List (List Char)
  | [] => [[]]
  | c :: rest =>
    let r := splitChars sep rest
    if c = sep then [] :: r
    else
      match r with
      | h :: t => (c :: h) :: t
      | [] => [[c]]

def digitsToNat (ds : List Char) : Nat :=
  ds.foldl (fun a c => a * 10 + (c.toNat - 48)) 0

/-- JS `parseInt(s, 10)`: skip leading whitespace, optional sign, then the
longest run of leading decimal digits; `none` models `NaN`. -/
def jsParseInt (cs : List Char) : Option Int :=
  let cs1 := cs.dropWhile Char.isWhitespace
  let sr : Int × List Char :=
    match cs1 with
    | '-' :: r => (-1, r)
    | '+' :: r => (1, r)
    | _ => (1, cs1)
  let ds := sr.2.takeWhile Char.isDigit
  if ds.isEmpty then none
  else some (sr.1 * (digitsToNat ds : Int))

/-! ### RangeParser (index.ts `parsePageRange` / `parseSinglePageRange`) -/

/-- Embeds the `parts[0]` handling of `parseSinglePageRange`: default start 1,
an explicit start must parse and be positive. -/
def parseStartBound (t0 : List Char) : Except String Int :=
  if t0.isEmpty then .ok 1
  else
    match jsParseInt t0 with
    | none => .error "Invalid start page: must be a positive number"
    | some s =>
      if s < 1 then .error "Invalid start page: must be a positive number"
      else .ok s

/-- Embeds the `parts[1]` handling of `parseSinglePageRange`: default end
`totalPages`, an explicit end must parse and be positive. -/
def parseEndBound (t1 : List Char) (totalPages : Nat) : Except String Int :=
  if t1.isEmpty then .ok (totalPages : Int)
  else
    match jsParseInt t1 with
    | none => .error "Invalid end page: must be a positive number"
    | some e =>
      if e < 1 then .error "Invalid end page: must be a positive number"
      else .ok e

/-- Embeds the colon branch of `parseSinglePageRange`: after both bounds are
read, `start > end` is an error, `start > totalPages` is an error, and an end
beyond `totalPages` is clamped; the pages `start..end` are returned. -/
def parseColonRange (p0 p1 : List Char) (totalPages : Nat) : Except String (List Nat) :=
  match parseStartBound (trimChars p0) with
  | .error msg => .error msg
  | .ok s =>
    match parseEndBound (trimChars p1) totalPages with
    | .error msg => .error msg
    | .ok e =>
      if e < s then .error "Invalid page range: start page is greater than end page"
      else if (totalPages : Int) < s then .error "Start page exceeds document length"
      else .ok (List.range' s.toNat ((min e (totalPages : Int)).toNat + 1 - s.toNat))

/-- Embeds `parseSinglePageRange` (index.ts:229): one comma-free segment,
either a single page or a colon range. -/
def parseSinglePageRange (segment : List Char) (totalPages : Nat) : Except String (List Nat) :=
  let trimmed := trimChars segment
  if trimmed.isEmpty then .error "Page range segment cannot be empty"
  else if ':' ∉ trimmed then
    match jsParseInt trimmed with
    | none => .error "Invalid page number"
    | some p =>
      if p < 1 ∨ (totalPages : Int) < p then .error "Invalid page number"
      else .ok [p.toNat]
  else
    match splitChars ':' trimmed with
    | [p0, p1] => parseColonRange p0 p1 totalPages
    | _ => .error "Invalid page range format"

/-- Insertion into the `Set<number>` of `parsePageRange`, which keeps first
insertion order and drops duplicates. -/
def insertDedup (acc : List Nat) (p : Nat) : List Nat :=
  if p ∈ acc then acc else acc ++ [p]

/-- The segment loop of `parsePageRange`: each segment is parsed and its pages
added to the set; a failing segment fails the whole parse. -/
def collectSegments (totalPages : Nat) : List (List Char) → List Nat → Except String (List Nat)
  | [], acc => .ok acc
  | seg :: rest, acc =>
    match parseSinglePageRange seg totalPages with
    | .error msg => .error ("Invalid segment: " ++ msg)
    | .ok ps => collectSegments totalPages rest (ps.foldl insertDedup acc)

def sortInsert (p : Nat) : List Nat → List Nat
  | [] => [p]
  | q :: qs => if p ≤ q then p :: q :: qs else q :: sortInsert p qs

/-- Ascending sort, modelling `Array.from(set).sort((a, b) => a - b)`. -/
def sortAsc (l : List Nat) : List Nat := l.foldr sortInsert []

/-- Embeds `parsePageRange` (index.ts:193): trim, reject empty, split on
commas, drop blank segments, union the segment page sets, sort ascending. -/
def parsePageRange (rangeStr : String) (totalPages : Nat) : Except String (List Nat) :=
  let range := trimChars rangeStr.toList
  if range.isEmpty then .error "Page range cannot be empty"
  else
    let segments := ((splitChars ',' range).map trimChars).filter (fun s => ¬ s.isEmpty)
    if segments.isEmpty then .error "Page range cannot be empty after parsing"
    else
      match collectSegments totalPages segments [] with
      | .error msg => .error msg
      | .ok allPages => .ok (sortAsc allPages)

/-- `true` exactly on failed range resolutions (the `InvalidRangeError` case). -/
def isRangeError : Except String (List Nat) → Bool
  | .error _ => true
  | .ok _ => false

/-! ### Helper lemmas for the range parser -/

theorem parseStartBound_pos {t0 : List Char} {s : Int} (h : parseStartBound t0 = .ok s) :
    1 ≤ s := by
  unfold parseStartBound at h
  split at h
  · exact (Except.ok.inj h) ▸ le_refl 1
  · split at h
    · exact absurd h (by simp)
    · split at h
      · exact absurd h (by simp)
      · next hlt => exact (Except.ok.inj h) ▸ not_lt.mp hlt

theorem parseColonRange_ok_mem {p0 p1 : List Char} {N : Nat} {ps : List Nat}
    (h : parseColonRange p0 p1 N = .ok ps) : ∀ x ∈ ps, 1 ≤ x ∧ x ≤ N := by
  unfold parseColonRange at h
  split at h
  · exact absurd h (by simp)
  · next s hs =>
    split at h
    · exact absurd h (by simp)
    · next e he =>
      split at h
      · exact absurd h (by simp)
      · next hes =>
        split at h
        · exact absurd h (by simp)
        · next hsN =>
          have hs1 : 1 ≤ s := parseStartBound_pos hs
          have hps : ps = List.range' s.toNat ((min e (N : Int)).toNat + 1 - s.toNat) :=
            (Except.ok.inj h).symm
          intro x hx
          rw [hps] at hx
          have hmem := List.mem_range'_1.mp hx
          have h1 : 1 ≤ s.toNat := by omega
          have h2 : s ≤ min e (N : Int) := le_min (not_lt.mp hes) (not_lt.mp hsN)
          have h3 : (min e (N : Int)).toNat ≤ N := by
            have : min e (N : Int) ≤ (N : Int) := min_le_right _ _
            omega
          have h4 : s.toNat ≤ (min e (N : Int)).toNat := by omega
          omega

theorem parseSinglePageRange_ok_mem {seg : List Char} {N : Nat} {ps : List Nat}
    (h : parseSinglePageRange seg N = .ok ps) : ∀ x ∈ ps, 1 ≤ x ∧ x ≤ N := by
  simp only [parseSinglePageRange] at h
  split at h
  · exact absurd h (by simp)
  · split at h
    · split at h
      · exact absurd h (by simp)
      · next p hp =>
        split at h
        · exact absurd h (by simp)
        · next hcond =>
          push_neg at hcond
          have hps : ps = [p.toNat] := (Except.ok.inj h).symm
          intro x hx
          rw [hps] at hx
          rcases List.mem_singleton.mp hx with rfl
          constructor <;> omega
    · split at h
      · exact parseColonRange_ok_mem h
      · exact absurd h (by simp)

theorem insertDedup_mem {acc : List Nat} {p x : Nat} (h : x ∈ insertDedup acc p) :
    x ∈ acc ∨ x = p := by
  unfold insertDedup at h
  split at h
  · exact Or.inl h
  · rcases List.mem_append.mp h with h1 | h1
    · exact Or.inl h1
    · exact Or.inr (List.mem_singleton.mp h1)

theorem insertDedup_nodup {acc : List Nat} {p : Nat} (h : acc.Nodup) :
    (insertDedup acc p).Nodup := by
  unfold insertDedup
  split
  · exact h
  · next hmem => simpa [List.nodup_append] using ⟨h, hmem⟩

theorem foldl_insertDedup_mem {ps acc : List Nat} {x : Nat}
    (h : x ∈ ps.foldl insertDedup acc) : x ∈ acc ∨ x ∈ ps := by
  induction ps generalizing acc with
  | nil => exact Or.inl h
  | cons q qs ih =>
    rcases ih h with h1 | h1
    · rcases insertDedup_mem h1 with h2 | h2
      · exact Or.inl h2
      · exact Or.inr (h2 ▸ List.mem_cons_self q qs)
    · exact Or.inr (List.mem_cons_of_mem q h1)

theorem foldl_insertDedup_nodup {ps acc : List Nat} (h : acc.Nodup) :
    (ps.foldl insertDedup acc).Nodup := by
  induction ps generalizing acc with
  | nil => exact h
  | cons q qs ih => exact ih (insertDedup_nodup h)

theorem collectSegments_ok {N : Nat} {segs : List (List Char)} {acc l : List Nat}
    (hacc : acc.Nodup) (haccb : ∀ x ∈ acc, 1 ≤ x ∧ x ≤ N)
    (h : collectSegments N segs acc = .ok l) :
    l.Nodup ∧ ∀ x ∈ l, 1 ≤ x ∧ x ≤ N := by
  induction segs generalizing acc with
  | nil =>
    have : acc = l := Except.ok.inj h
    exact this ▸ ⟨hacc, haccb⟩
  | cons seg rest ih =>
    unfold collectSegments at h
    split at h
    · exact absurd h (by simp)
    · next ps hps =>
      refine ih (foldl_insertDedup_nodup hacc) ?_ h
      intro x hx
      rcases foldl_insertDedup_mem hx with h1 | h1
      · exact haccb x h1
      · exact parseSinglePageRange_ok_mem hps x h1

theorem sortInsert_perm (p : Nat) (l : List Nat) : List.Perm (sortInsert p l) (p :: l) := by
  induction l with
  | nil => rfl
  | cons q qs ih =>
    simp only [sortInsert]
    split
    · rfl
    · exact (List.Perm.cons q ih).trans (List.Perm.swap p q qs)

theorem sortAsc_perm (l : List Nat) : List.Perm (sortAsc l) l := by
  induction l with
  | nil => rfl
  | cons q qs ih => exact (sortInsert_perm q (sortAsc qs)).trans (ih.cons q)

theorem sortInsert_sorted (p : Nat) (l : List Nat) (h : l.Pairwise (· ≤ ·)) :
    (sortInsert p l).Pairwise (· ≤ ·) := by
  induction l with
  | nil => simp [sortInsert]
  | cons q qs ih =>
    simp only [sortInsert]
    split
    · next hle =>
      refine List.Pairwise.cons ?_ h
      intro b hb
      rcases List.mem_cons.mp hb with rfl | hb2
      · exact hle
      · exact le_trans hle ((List.pairwise_cons.mp h).1 b hb2)
    · next hgt =>
      have hq := List.pairwise_cons.mp h
      refine List.Pairwise.cons ?_ (ih hq.2)
      intro b hb
      have hmem := (sortInsert_perm p qs).mem_iff.mp hb
      rcases List.mem_cons.mp hmem with rfl | hb2
      · exact le_of_not_le hgt
      · exact hq.1 b hb2

theorem sortAsc_sorted (l : List Nat) : (sortAsc l).Pairwise (· ≤ ·) := by
  induction l with
  | nil => exact List.Pairwise.nil
  | cons q qs ih => exact sortInsert_sorted q (sortAsc qs) ih

theorem sorted_nodup_strict {l : List Nat} (h1 : l.Pairwise (· ≤ ·)) (h2 : l.Nodup) :
    l.Pairwise (· < ·) :=
  (List.Pairwise.and h1 h2).imp (fun {a b} hh => lt_of_le_of_ne hh.1 hh.2)

/-! ### Claims C3, C4, C5 -/

/-- C3: whenever range resolution succeeds on an expression `E` with a
positive page count `N`, the returned page list is strictly increasing (hence
duplicate-free) and every element lies in `[1, N]`. -/
theorem C3_parsePageRange_strictly_increasing_in_bounds
    (E : String) (N : Nat) (hN : 0 < N) (l : List Nat)
    (h : parsePageRange E N = .ok l) :
    l.Pairwise (· < ·) ∧ ∀ p ∈ l, 1 ≤ p ∧ p ≤ N := by
  simp only [parsePageRange] at h
  split at h
  · exact absurd h (by simp)
  · split at h
    · exact absurd h (by simp)
    · split at h
      · exact absurd h (by simp)
      · next allPages hall =>
        have hres : l = sortAsc allPages := (Except.ok.inj h).symm
        have hcs := collectSegments_ok List.nodup_nil (by intro x hx; exact absurd hx (List.not_mem_nil x)) hall
        subst hres
        constructor
        · exact sorted_nodup_strict (sortAsc_sorted allPages)
            ((sortAsc_perm allPages).nodup_iff.mpr hcs.1)
        · intro p hp
          exact hcs.2 p ((sortAsc_perm allPages).mem_iff.mp hp)

/-- Witness for C3 at the concrete input `resolve("1,3:5", 10)`. -/
theorem C3_witness :
    List.Pairwise (· < ·) [1, 3, 4, 5] ∧ ∀ p ∈ [1, 3, 4, 5], 1 ≤ p ∧ p ≤ 10 :=
  C3_parsePageRange_strictly_increasing_in_bounds "1,3:5" 10 (by decide) [1, 3, 4, 5] (by decide)

/-- C4: range resolution fails on an empty expression, on a single-page
segment exceeding the page count, and on an explicit start greater than an
explicit end. -/
theorem C4_parsePageRange_error_cases :
    isRangeError (parsePageRange "" 10) = true ∧
    isRangeError (parsePageRange "20" 10) = true ∧
    isRangeError (parsePageRange "5:3" 10) = true := by
  decide

/-- C5: exact resolution results, including silent clamping of an end bound
beyond the page count. -/
theorem C5_parsePageRange_examples :
    parsePageRange "5" 10 = .ok [5] ∧
    parsePageRange "5:10" 12 = .ok [5, 6, 7, 8, 9, 10] ∧
    parsePageRange "7:" 10 = .ok [7, 8, 9, 10] ∧
    parsePageRange ":5" 10 = .ok [1, 2, 3, 4, 5] ∧
    parsePageRange "1,3:5,7,10:" 12 = .ok [1, 3, 4, 5, 7, 10, 11, 12] ∧
    parsePageRange "5:100" 10 = .ok [5, 6, 7, 8, 9, 10] := by
  decide


/-! ### PatternCompiler (index.ts `parseSearchPattern`) -/

/-- JS `String.prototype.lastIndexOf` for a single character: the greatest
index holding `c`, or `-1` when absent. -/
def lastIndexOfAux (c : Char) : List Char → Nat → Int → Int
  | [], _, best => best
  | x :: xs, i, best => lastIndexOfAux c xs (i + 1) (if x = c then (i : Int) else best)

def jsLastIndexOf (c : Char) (cs : List Char) : Int := lastIndexOfAux c cs 0 (-1)

/-- The characters escaped by the literal branch of `parseSearchPattern`
(the regex `[.*+?^$\x7b\x7d()|[\]\\]`). -/
def regexSpecials : List Char :=
  ['.', '*', '+', '?', '^', '$', Char.ofNat 123, Char.ofNat 125, '(', ')', '|', '[', ']', '\\']

/-- The `replace(/[.*+?^$\x7b\x7d()|[\]\\]/g, "\\$&")` escaping applied to literal
patterns. -/
def escapeRegex : List Char → List Char
  | [] => []
  | c :: rest => (if c ∈ regexSpecials then ['\\', c] else [c]) ++ escapeRegex rest

/-- Result of `parseSearchPattern`: the source keeps the literal/regex flag.
A literal keeps the original text; its regex source is the escaped text and
its flags are exactly `gi` (see `CompiledPattern.source` / `.flags`). -/
inductive CompiledPattern where
  | regex (src fl : List Char)
  | literal (orig : List Char)
deriving DecidableEq

def CompiledPattern.source : CompiledPattern → List Char
  | .regex s _ => s
  | .literal orig => escapeRegex orig

def CompiledPattern.flags : CompiledPattern → List Char
  | .regex _ f => f
  | .literal _ => ['g', 'i']

def CompiledPattern.isRegex : CompiledPattern → Bool
  | .regex _ _ => true
  | .literal _ => false

/-- The flag alphabet accepted by the validator regex `/^[gimsuvy]*$/`. -/
def validFlagChar (c : Char) : Bool :=
  c ∈ (['g', 'i', 'm', 's', 'u', 'v', 'y'] : List Char)

/-- Embeds `parseSearchPattern` (index.ts:292).  `compileOk src fl` is the
oracle for whether `new RegExp(src, fl)` succeeds on a delimited body (the
JS regex grammar is external to this embedding; an escaped literal always
compiles, as every metacharacter in it is escaped). -/
def parseDelimited (compileOk : List Char → List Char → Bool) (cs : List Char) (k : Nat) :
    Except String CompiledPattern :=
  if (cs.drop (k + 1)).all validFlagChar then
    if compileOk ((cs.drop 1).take (k - 1)) (cs.drop (k + 1)) then
      .ok (.regex ((cs.drop 1).take (k - 1)) (cs.drop (k + 1)))
    else .error "Invalid regex pattern"
  else .error "Invalid regex flags: valid flags are g, i, m, s, u, v, y"

def parseSearchPatternL (compileOk : List Char → List Char → Bool) (cs : List Char) :
    Except String CompiledPattern :=
  if cs.head? = some '/' ∧ 0 < jsLastIndexOf '/' cs then
    parseDelimited compileOk cs (jsLastIndexOf '/' cs).toNat
  else .ok (.literal cs)

def parseSearchPattern (compileOk : List Char → List Char → Bool) (pattern : String) :
    Except String CompiledPattern :=
  parseSearchPatternL compileOk pattern.toList

/-! ### BoundedMatcher (index.ts `searchWithTimeout`) -/

/-- Outcome of the scanning loop of `searchWithTimeout`: the eager match list,
the >10000-match ceiling error, or exhaustion of the iteration budget (used
only to reason about termination; the theorems show it cannot occur with
enough fuel). -/
inductive ScanOutcome where
  | ok (ms : List (Nat × Nat))
  | tooMany
  | fuelOut
deriving DecidableEq

/-- One-to-one embedding of the `while ((match = regex.exec(text)) !== null)`
loop of `searchWithTimeout` (index.ts:352-364).  `find pos` models what the
compiled regex matches starting the attempt at `pos` (`(index, length)` of
the match).  In ECMAScript, `exec` consults `lastIndex` and sets it to the
match end exactly when the regex is global (`g`) or sticky (`y`) — the
`global := true` mode here, with a sticky regex's anchoring folded into
`find`; a regex with neither flag ignores `lastIndex` and always searches
from 0 — the `global := false` mode.  After each match the code pushes it,
bumps `lastIndex` by one when the match index equals the updated
`lastIndex` (zero-width guard), and fails once more than 10000 matches
accumulated. -/
def searchLoopAux (global : Bool) (find : Nat → Option (Nat × Nat)) :
    Nat → Nat → List (Nat × Nat) → ScanOutcome
  | 0, _, _ => .fuelOut
  | fuel + 1, lastIndex, acc =>
    match (cond global (find lastIndex) (find 0)) with
    | none => .ok acc
    | some (i, w) =>
      let li1 := cond global (i + w) lastIndex
      let li2 := if i = li1 then li1 + 1 else li1
      let acc2 := acc ++ [(i, w)]
      if 10000 < acc2.length then .tooMany
      else searchLoopAux global find fuel li2 acc2

/-- The whole per-page scan: `regex.lastIndex = 0` then the loop. -/
def scanMatches (global : Bool) (find : Nat → Option (Nat × Nat)) (fuel : Nat) : ScanOutcome :=
  searchLoopAux global find fuel 0 []

/-- Case-insensitive-capable prefix test, modelling how an escaped literal
regex with flag `i` matches at one position. -/
def isPrefixCI (ci : Bool) : List Char → List Char → Bool
  | [], _ => true
  | _ :: _, [] => false
  | c :: cs, d :: ds =>
    (if ci then c.toLower = d.toLower else c = d) && isPrefixCI ci cs ds

def lfAux (needle : List Char) (ci : Bool) : List Char → Nat → Option (Nat × Nat)
  | suffix, i =>
    if isPrefixCI ci needle suffix then some (i, needle.length)
    else
      match suffix with
      | [] => none
      | _ :: rest => lfAux needle ci rest (i + 1)

/-- Matcher semantics of the escaped-literal regex produced by the literal
branch of `parseSearchPattern`: the leftmost occurrence of the literal at or
after `pos` (case-folded under flag `i`), as the JS engine finds for the
metacharacter-escaped source. -/
def literalFind (needle hay : List Char) (ci : Bool) (pos : Nat) : Option (Nat × Nat) :=
  if hay.length < pos then none
  else lfAux needle ci (hay.drop pos) pos

/-- Matcher semantics of a sticky (flag `y`) regex with a literal body, as
the JS engine executes it: the attempt is anchored at the current position,
matching only when the literal occurs exactly there, and `exec` then
advances `lastIndex` past the match (the `lastIndex`-consuming mode of the
scan loop). -/
def stickyLiteralFind (needle hay : List Char) (ci : Bool) (pos : Nat) : Option (Nat × Nat) :=
  if pos ≤ hay.length ∧ isPrefixCI ci needle (hay.drop pos) then some (pos, needle.length)
  else none

/-! ### Helper lemmas for the pattern compiler and matcher -/

theorem lastIndexOfAux_not_mem {c : Char} {l : List Char} (h : c ∉ l) (i : Nat) (best : Int) :
    lastIndexOfAux c l i best = best := by
  induction l generalizing i best with
  | nil => rfl
  | cons x xs ih =>
    have hx : ¬ x = c := fun he => h (he ▸ List.mem_cons_self x xs)
    simp only [lastIndexOfAux, if_neg hx]
    exact ih (fun hm => h (List.mem_cons_of_mem x hm)) _ _

theorem lastIndexOfAux_append (c : Char) (l1 l2 : List Char) (i : Nat) (best : Int) :
    lastIndexOfAux c (l1 ++ l2) i best = lastIndexOfAux c l2 (i + l1.length) (lastIndexOfAux c l1 i best) := by
  induction l1 generalizing i best with
  | nil => simp [lastIndexOfAux]
  | cons x xs ih =>
    simp only [List.cons_append, List.append_eq, lastIndexOfAux, List.length_cons]
    rw [ih]
    have he : i + 1 + xs.length = i + (xs.length + 1) := by omega
    rw [he]

theorem jsLastIndexOf_decomp (body fl : List Char) (hf : '/' ∉ fl) :
    jsLastIndexOf '/' ('/' :: body ++ '/' :: fl) = ((1 : Int) + body.length) := by
  show lastIndexOfAux '/' ('/' :: (body ++ '/' :: fl)) 0 (-1) = _
  simp only [lastIndexOfAux, if_pos rfl]
  rw [lastIndexOfAux_append]
  simp only [lastIndexOfAux, if_pos rfl]
  rw [lastIndexOfAux_not_mem hf]
  push_cast
  omega

theorem jsLastIndexOf_pos_mem_tail {cs : List Char} (h : 0 < jsLastIndexOf '/' cs) :
    '/' ∈ cs.tail := by
  by_contra hmem
  cases cs with
  | nil => simp [jsLastIndexOf, lastIndexOfAux] at h
  | cons c0 t =>
    simp only [List.tail_cons] at hmem
    have : jsLastIndexOf '/' (c0 :: t) = (if c0 = '/' then (0 : Int) else -1) := by
      show lastIndexOfAux '/' (c0 :: t) 0 (-1) = _
      simp only [lastIndexOfAux]
      exact lastIndexOfAux_not_mem hmem _ _
    rw [this] at h
    split at h <;> omega

theorem exists_last_slash_decomp (t : List Char) (h : '/' ∈ t) :
    ∃ b f, t = b ++ '/' :: f ∧ '/' ∉ f := by
  induction t with
  | nil => cases h
  | cons c rest ih =>
    by_cases hr : '/' ∈ rest
    · obtain ⟨b, f, rfl, hfm⟩ := ih hr
      exact ⟨c :: b, f, rfl, hfm⟩
    · have hc : c = '/' := by
        rcases List.mem_cons.mp h with h1 | h1
        · exact h1.symm
        · exact absurd h1 hr
      exact ⟨[], rest, by rw [hc]; rfl, hr⟩

theorem globalLoop_no_fuelOut {len : Nat} {find : Nat → Option (Nat × Nat)}
    (Hmono : ∀ pos i w, find pos = some (i, w) → pos ≤ i)
    (Hbound : ∀ pos i w, find pos = some (i, w) → i + w ≤ len) :
    ∀ fuel ℓ acc, len + 2 ≤ fuel + ℓ → 1 ≤ fuel →
      searchLoopAux true find fuel ℓ acc ≠ .fuelOut := by
  intro fuel
  induction fuel with
  | zero => intro ℓ acc h1 h2; omega
  | succ n ih =>
    intro ℓ acc hle _
    cases hf : find ℓ with
    | none => simp [searchLoopAux, hf]
    | some iw =>
      obtain ⟨i, w⟩ := iw
      have h1 := Hmono ℓ i w hf
      have h2 := Hbound ℓ i w hf
      simp only [searchLoopAux, cond_true, hf]
      split
      · simp
      · exact ih _ _ (by split <;> omega) (by omega)

theorem nonGlobalLoop_tooMany {find : Nat → Option (Nat × Nat)} {i w : Nat}
    (hf : find 0 = some (i, w)) :
    ∀ fuel ℓ acc, 10001 ≤ fuel + acc.length → acc.length ≤ 10000 →
      searchLoopAux false find fuel ℓ acc = .tooMany := by
  intro fuel
  induction fuel with
  | zero => intro ℓ acc h1 h2; omega
  | succ n ih =>
    intro ℓ acc h1 h2
    simp only [searchLoopAux, cond_false, hf]
    split
    · rfl
    · next hlen =>
      have hacc : (acc ++ [(i, w)]).length = acc.length + 1 := by simp
      refine ih _ _ ?_ ?_
      · rw [hacc]; omega
      · rw [hacc]; rw [hacc] at hlen; omega



/-- The coordinators rebuild the page regex as `new RegExp(regex.source,
regex.flags)`.  In ECMAScript, `exec` consults and advances `lastIndex`
exactly when the regex is global (`g`) or sticky (`y`); with neither flag
every `exec` restarts at position 0.  The scan loop therefore runs in its
`lastIndex`-consuming mode exactly when `g` or `y` is among the compiled
flags. -/
def CompiledPattern.usesLastIndex (p : CompiledPattern) : Bool :=
  decide ('g' ∈ p.flags) || decide ('y' ∈ p.flags)

/-! ### Claims C6, C7, C10 -/

/-- C6: a pattern is compiled as a delimited regex exactly when it begins
with `/` and has a later second `/`; a delimited pattern keeps exactly the
supplied flags, failing on a flag outside `gimsuvy` or a non-compiling body;
every other pattern is literal, escaped and compiled with exactly flags
`gi`, so literal search is case-insensitive: "Budget" against
"budget approved" yields exactly one match. -/
theorem C6_parseSearchPattern_policy
    (compileOk : List Char → List Char → Bool) (cs body fl : List Char) :
    (¬ (cs.head? = some '/' ∧ '/' ∈ cs.tail) →
      parseSearchPatternL compileOk cs = .ok (.literal cs) ∧
      CompiledPattern.flags (.literal cs) = ['g', 'i'] ∧
      CompiledPattern.source (.literal cs) = escapeRegex cs) ∧
    ((cs.head? = some '/' ∧ '/' ∈ cs.tail) →
      ∃ b f, cs = '/' :: (b ++ '/' :: f) ∧ '/' ∉ f) ∧
    ('/' ∉ fl →
      parseSearchPatternL compileOk ('/' :: body ++ '/' :: fl) =
        (if fl.all validFlagChar then
          (if compileOk body fl then .ok (.regex body fl)
           else .error "Invalid regex pattern")
         else .error "Invalid regex flags: valid flags are g, i, m, s, u, v, y")) ∧
    parseSearchPatternL compileOk "Budget".toList = .ok (.literal "Budget".toList) ∧
    scanMatches true (literalFind "Budget".toList "budget approved".toList true) 100 =
      .ok [(0, 6)] := by
  have hlit : ∀ ds : List Char, ¬ (ds.head? = some '/' ∧ '/' ∈ ds.tail) →
      parseSearchPatternL compileOk ds = .ok (.literal ds) := by
    intro ds hds
    unfold parseSearchPatternL
    rw [if_neg]
    intro hcond
    exact hds ⟨hcond.1, jsLastIndexOf_pos_mem_tail hcond.2⟩
  refine ⟨fun h => ⟨hlit cs h, rfl, rfl⟩, ?_, ?_, ?_, ?_⟩
  · rintro ⟨hh, ht⟩
    cases cs with
    | nil => exact absurd hh (by simp)
    | cons c0 t =>
      have hc0 : c0 = '/' := by simpa using hh
      simp only [List.tail_cons] at ht
      obtain ⟨b, f, rfl, hf⟩ := exists_last_slash_decomp t ht
      exact ⟨b, f, by rw [hc0], hf⟩
  · intro hf
    have hk : jsLastIndexOf '/' ('/' :: body ++ '/' :: fl) = ((1 : Int) + body.length) :=
      jsLastIndexOf_decomp body fl hf
    unfold parseSearchPatternL
    rw [if_pos ⟨rfl, by rw [hk]; positivity⟩]
    have hkn : ((1 : Int) + body.length).toNat = 1 + body.length := by omega
    rw [hk, hkn]
    unfold parseDelimited
    have hpat : ((('/' :: body ++ '/' :: fl).drop 1).take (1 + body.length - 1)) = body := by
      simp only [List.cons_append, List.drop_succ_cons, List.drop_zero, Nat.add_sub_cancel_left]
      exact List.take_left body ('/' :: fl)
    have hfl : (('/' :: body ++ '/' :: fl).drop (1 + body.length + 1)) = fl := by
      simp only [List.cons_append, List.drop_succ_cons]
      rw [show body ++ '/' :: fl = (body ++ ['/']) ++ fl from by simp]
      rw [show 1 + body.length = (body ++ ['/']).length from by simp [Nat.add_comm]]
      exact List.drop_left (body ++ ['/']) fl
    rw [hpat, hfl]
  · exact hlit _ (by decide)
  · decide

/-- Witness for C6: a delimited pattern with exact flags, and a plain
pattern compiled as a literal. -/
theorem C6_witness :
    parseSearchPatternL (fun _ _ => true) ('/' :: "foo".toList ++ '/' :: ['i']) =
      .ok (.regex "foo".toList ['i']) ∧
    parseSearchPatternL (fun _ _ => true) "abc".toList = .ok (.literal "abc".toList) := by
  constructor
  · have h := (C6_parseSearchPattern_policy (fun _ _ => true) [] "foo".toList ['i']).2.2.1
      (by decide)
    exact h.trans (by decide)
  · exact ((C6_parseSearchPattern_policy (fun _ _ => true) "abc".toList [] []).1 (by decide)).1

/-- C7: the per-page scan loop always terminates for any well-behaved
matcher over a page of length `len` — it returns the eager match list or
fails via the >10000 ceiling, never running out of a `len + 10003`-step
budget, in both loop modes; and a zero-length match at index `i`
advances the scan position to `i + 1`. -/
theorem C7_scan_terminates
    (global : Bool) (find : Nat → Option (Nat × Nat)) (len fuel : Nat)
    (Hmono : ∀ pos i w, find pos = some (i, w) → pos ≤ i)
    (Hbound : ∀ pos i w, find pos = some (i, w) → i + w ≤ len)
    (Hfuel : len + 10003 ≤ fuel) :
    scanMatches global find fuel ≠ .fuelOut ∧
    (∀ fuel2 ℓ i acc, find ℓ = some (i, 0) → (acc ++ [(i, 0)]).length ≤ 10000 →
      searchLoopAux true find (fuel2 + 1) ℓ acc =
        searchLoopAux true find fuel2 (i + 1) (acc ++ [(i, 0)])) := by
  constructor
  · cases global with
    | true =>
      exact globalLoop_no_fuelOut Hmono Hbound fuel 0 [] (by omega) (by omega)
    | false =>
      cases hf : find 0 with
      | none =>
        obtain ⟨m, rfl⟩ : ∃ m, fuel = m + 1 := ⟨fuel - 1, by omega⟩
        simp [scanMatches, searchLoopAux, hf]
      | some iw =>
        obtain ⟨i, w⟩ := iw
        have ht := nonGlobalLoop_tooMany hf fuel 0 [] (by simp; omega) (by simp)
        unfold scanMatches
        rw [ht]
        simp
  · intro fuel2 ℓ i acc hfind hlen
    simp only [searchLoopAux, cond_true, hfind, Nat.add_zero, if_pos rfl]
    rw [if_neg (by omega)]
    simp

/-- Witness for C7 at a matcher that matches (with zero width) at every
position of a 100000-character page. -/
theorem C7_witness :
    scanMatches true (fun pos => if pos ≤ 100000 then some (pos, 0) else none) 110003 ≠
      ScanOutcome.fuelOut :=
  (C7_scan_terminates true (fun pos => if pos ≤ 100000 then some (pos, 0) else none)
    100000 110003
    (fun pos i w h => by
      by_cases hp : pos ≤ 100000
      · simp only [if_pos hp, Option.some.injEq, Prod.mk.injEq] at h
        omega
      · simp [hp] at h)
    (fun pos i w h => by
      by_cases hp : pos ≤ 100000
      · simp only [if_pos hp, Option.some.injEq, Prod.mk.injEq] at h
        omega
      · simp [hp] at h)
    (by omega)).1

/-- C10 counterexample: the claim ranges over every delimited pattern whose
flags lack `g`, but the flag validator also accepts the sticky flag `y`,
and a sticky regex consumes and advances `lastIndex` in `exec` even without
`g`.  `/foo/y` compiles with no `g` flag, runs the loop in the
`lastIndex`-consuming mode, and on the text `foofoo` the scan returns a
two-element match list — not the >10000-match failure the claim asserts for
every matching no-`g` pattern. -/
theorem C10_counterexample :
    parseSearchPattern (fun _ _ => true) "/foo/y" = .ok (.regex "foo".toList ['y']) ∧
    'g' ∉ CompiledPattern.flags (.regex "foo".toList ['y']) ∧
    CompiledPattern.usesLastIndex (.regex "foo".toList ['y']) = true ∧
    scanMatches true (stickyLiteralFind "foo".toList "foofoo".toList false) 100 =
      .ok [(0, 3), (3, 3)] := by
  refine ⟨by decide, by decide, by decide, by decide⟩

/-- C10 amended: a delimited pattern whose flags contain neither `g` nor
`y` (such as `/foo/i`) compiles to a regex that restarts every `exec` at
position 0; in that mode the loop re-finds the same first match forever, so
any text with at least one match always ends in the too-many-matches
(>10000) failure, and a text with no match yields the empty list. -/
theorem C10_no_g_no_y_always_ceiling
    (compileOk : List Char → List Char → Bool)
    (find : Nat → Option (Nat × Nat)) (i w fuel : Nat) :
    (compileOk "foo".toList ['i'] = true →
      parseSearchPattern compileOk "/foo/i" = .ok (.regex "foo".toList ['i'])) ∧
    (∀ body2 fl2 : List Char, 'g' ∉ fl2 → 'y' ∉ fl2 →
      CompiledPattern.usesLastIndex (.regex body2 fl2) = false) ∧
    (find 0 = some (i, w) → 10001 ≤ fuel → scanMatches false find fuel = .tooMany) ∧
    (find 0 = none → 1 ≤ fuel → scanMatches false find fuel = .ok []) := by
  refine ⟨?_, ?_, ?_, ?_⟩
  · intro hok
    have h0 : parseSearchPattern compileOk "/foo/i" =
        (if compileOk "foo".toList ['i'] then .ok (.regex "foo".toList ['i'])
         else .error "Invalid regex pattern") := rfl
    rw [h0, hok]
    simp
  · intro body2 fl2 hg hy
    simp [CompiledPattern.usesLastIndex, CompiledPattern.flags, hg, hy]
  · intro hf hfuel
    exact nonGlobalLoop_tooMany hf fuel 0 [] (by simp; omega) (by simp)
  · intro hf hfuel
    obtain ⟨m, rfl⟩ : ∃ m, fuel = m + 1 := ⟨fuel - 1, by omega⟩
    simp [scanMatches, searchLoopAux, hf]

/-- Witness for C10: the concrete pattern `/foo/i` (neither `g` nor `y`), a
matcher with a match, and a matcher with no match. -/
theorem C10_witness :
    parseSearchPattern (fun _ _ => true) "/foo/i" = .ok (.regex "foo".toList ['i']) ∧
    CompiledPattern.usesLastIndex (.regex "foo".toList ['i']) = false ∧
    scanMatches false (fun _ => some (0, 3)) 10001 = .tooMany ∧
    scanMatches false (fun _ => none) 1 = .ok [] :=
  ⟨(C10_no_g_no_y_always_ceiling (fun _ _ => true) (fun _ => some (0, 3)) 0 3 10001).1 rfl,
   (C10_no_g_no_y_always_ceiling (fun _ _ => true) (fun _ => some (0, 3)) 0 3
     10001).2.1 "foo".toList ['i'] (by decide) (by decide),
   (C10_no_g_no_y_always_ceiling (fun _ _ => true) (fun _ => some (0, 3)) 0 3 10001).2.2.1
     rfl (by omega),
   (C10_no_g_no_y_always_ceiling (fun _ _ => true) (fun _ => none) 0 0 1).2.2.2
     rfl (by omega)⟩



/-! ### SearchCoordinator (index.ts `searchPdfComprehensive` / `searchPdfPageByPage`)

The document backend is abstracted as two oracles, matching the calls the
coordinators make per page: `textOf p` is the text extracted for page `p`
(the hybrid extractor catches per-page failures and yields an empty string),
and `scanOf t` is the outcome of `searchWithTimeout` on text `t` (an error
models a timeout or the >10000-match ceiling). -/

structure Snippet where
  text : List Char
  matchStart : Nat
  matchEnd : Nat
deriving DecidableEq

/-- Embeds `extractContext` (index.ts:320): the window is clamped to the page
text and offsets are re-expressed relative to the window. -/
def extractContext (text : List Char) (matchStart matchEnd contextChars : Nat) : Snippet :=
  { text := ((text.drop (matchStart - contextChars)).take
      (min text.length (matchEnd + contextChars) - (matchStart - contextChars)))
    matchStart := matchStart - (matchStart - contextChars)
    matchEnd := matchEnd - (matchStart - contextChars) }

structure PageSearchResult where
  page : Nat
  matchCount : Nat
  snippets : List Snippet
deriving DecidableEq

/-- The `matches.map(...)` snippet construction shared by both strategies:
each match `(index, length)` gets an independent context window. -/
def mkSnippets (pageText : List Char) (contextChars : Nat) (ms : List (Nat × Nat)) :
    List Snippet :=
  ms.map (fun m => extractContext pageText m.1 (m.1 + m.2) contextChars)

def noTextMsg (p : Nat) : String := "Page " ++ toString p ++ ": No text extracted"

def searchFailMsg (p : Nat) (e : String) : String :=
  "Page " ++ toString p ++ ": Search failed - " ++ e

/-- Aggregate result of the exhaustive strategy; `matchResults` is the
`matches` array of the JS result object. -/
structure ComprehensiveResult where
  matchResults : List PageSearchResult
  errors : List String
  pagesScanned : Nat
deriving DecidableEq

/-- The per-page loop of `searchPdfComprehensive` (index.ts:667-699): a blank
page records an error and continues; a failed scan records an error and
continues; a page with matches contributes one result entry. -/
def searchPagesComprehensive (textOf : Nat → List Char)
    (scanOf : List Char → Except String (List (Nat × Nat))) (ctx : Nat) :
    List Nat → List PageSearchResult × List String
  | [] => ([], [])
  | p :: rest =>
    let tail := searchPagesComprehensive textOf scanOf ctx rest
    if (trimChars (textOf p)).isEmpty then (tail.1, noTextMsg p :: tail.2)
    else
      match scanOf (textOf p) with
      | .error e => (tail.1, searchFailMsg p e :: tail.2)
      | .ok ms =>
        if 0 < ms.length then
          (⟨p, ms.length, mkSnippets (textOf p) ctx ms⟩ :: tail.1, tail.2)
        else tail

/-- Embeds `searchPdfComprehensive` (index.ts:627): scan every requested
page; `pagesScanned` is the full page count. -/
def searchPdfComprehensive (textOf : Nat → List Char)
    (scanOf : List Char → Except String (List (Nat × Nat))) (ctx : Nat)
    (pageNumbers : List Nat) : ComprehensiveResult :=
  { matchResults := (searchPagesComprehensive textOf scanOf ctx pageNumbers).1
    errors := (searchPagesComprehensive textOf scanOf ctx pageNumbers).2
    pagesScanned := pageNumbers.length }

inductive StopReason where
  | max_results
  | max_pages
  | completed
deriving DecidableEq

structure PageByPageResult where
  matchResults : List PageSearchResult
  errors : List String
  pagesScanned : Nat
  completed : Bool
  stoppedReason : StopReason
deriving DecidableEq

/-- Mutable state of the `searchPdfPageByPage` loop. -/
structure PBState where
  results : List PageSearchResult
  errors : List String
  totalMatchCount : Nat
  pagesScanned : Nat
deriving DecidableEq

/-- A JS guard of the form `limit && value >= limit`: the limit must be
truthy (present and nonzero) and reached. -/
def limitHit (limit : Option Nat) (v : Nat) : Bool :=
  match limit with
  | some m => decide (m ≠ 0) && decide (m ≤ v)
  | none => false

/-- Embeds the `for (const pageNum of pageNumbers)` loop of
`searchPdfPageByPage` (index.ts:755-823): before a page, stop with
`max_pages` if the page ceiling is hit; then count the page as scanned; a
blank page or failed scan appends an error and continues; a page with
matches appends a result, and if the cumulative match count reaches
`maxResults` the loop stops with `max_results`; an exhausted list completes. -/
def searchPageByPageLoop (textOf : Nat → List Char)
    (scanOf : List Char → Except String (List (Nat × Nat))) (ctx : Nat)
    (maxResults maxPagesScanned : Option Nat) :
    List Nat → PBState → PageByPageResult
  | [], st => ⟨st.results, st.errors, st.pagesScanned, true, .completed⟩
  | p :: rest, st =>
    if limitHit maxPagesScanned st.pagesScanned then
      ⟨st.results, st.errors, st.pagesScanned, false, .max_pages⟩
    else
      if (trimChars (textOf p)).isEmpty then
        searchPageByPageLoop textOf scanOf ctx maxResults maxPagesScanned rest
          ⟨st.results, st.errors ++ [noTextMsg p], st.totalMatchCount, st.pagesScanned + 1⟩
      else
        match scanOf (textOf p) with
        | .error e =>
          searchPageByPageLoop textOf scanOf ctx maxResults maxPagesScanned rest
            ⟨st.results, st.errors ++ [searchFailMsg p e], st.totalMatchCount,
              st.pagesScanned + 1⟩
        | .ok ms =>
          if 0 < ms.length then
            if limitHit maxResults (st.totalMatchCount + ms.length) then
              ⟨st.results ++ [⟨p, ms.length, mkSnippets (textOf p) ctx ms⟩], st.errors,
                st.pagesScanned + 1, false, .max_results⟩
            else
              searchPageByPageLoop textOf scanOf ctx maxResults maxPagesScanned rest
                ⟨st.results ++ [⟨p, ms.length, mkSnippets (textOf p) ctx ms⟩], st.errors,
                  st.totalMatchCount + ms.length, st.pagesScanned + 1⟩
          else
            searchPageByPageLoop textOf scanOf ctx maxResults maxPagesScanned rest
              ⟨st.results, st.errors, st.totalMatchCount, st.pagesScanned + 1⟩

/-- Embeds `searchPdfPageByPage` (index.ts:714): the loop from the empty
initial state. -/
def searchPdfPageByPage (textOf : Nat → List Char)
    (scanOf : List Char → Except String (List (Nat × Nat))) (ctx : Nat)
    (maxResults maxPagesScanned : Option Nat) (pageNumbers : List Nat) : PageByPageResult :=
  searchPageByPageLoop textOf scanOf ctx maxResults maxPagesScanned pageNumbers ⟨[], [], 0, 0⟩

/-- Number of matches page `p` contributes (0 for a blank page or a failed
scan). -/
def pageMatchCount (textOf : Nat → List Char)
    (scanOf : List Char → Except String (List (Nat × Nat))) (p : Nat) : Nat :=
  if (trimChars (textOf p)).isEmpty then 0
  else
    match scanOf (textOf p) with
    | .error _ => 0
    | .ok ms => ms.length

/-- The error entry page `p` produces, if any. -/
def pageErrorMsg (textOf : Nat → List Char)
    (scanOf : List Char → Except String (List (Nat × Nat))) (p : Nat) : Option String :=
  if (trimChars (textOf p)).isEmpty then some (noTextMsg p)
  else
    match scanOf (textOf p) with
    | .error e => some (searchFailMsg p e)
    | .ok _ => none

/-- The result entry page `p` produces, if any. -/
def pageEntry (textOf : Nat → List Char)
    (scanOf : List Char → Except String (List (Nat × Nat))) (ctx : Nat) (p : Nat) :
    Option PageSearchResult :=
  if (trimChars (textOf p)).isEmpty then none
  else
    match scanOf (textOf p) with
    | .error _ => none
    | .ok ms =>
      if 0 < ms.length then some ⟨p, ms.length, mkSnippets (textOf p) ctx ms⟩ else none



/-! ### Helper lemmas for the coordinators -/

theorem pbLoop_zero_step (textOf : Nat → List Char)
    (scanOf : List Char → Except String (List (Nat × Nat))) (ctx : Nat)
    (maxR maxP : Option Nat) (p : Nat) (rest : List Nat) (st : PBState)
    (h0 : pageMatchCount textOf scanOf p = 0)
    (hnp : limitHit maxP st.pagesScanned = false) :
    ∃ st2 : PBState,
      searchPageByPageLoop textOf scanOf ctx maxR maxP (p :: rest) st =
        searchPageByPageLoop textOf scanOf ctx maxR maxP rest st2 ∧
      st2.totalMatchCount = st.totalMatchCount ∧
      st2.pagesScanned = st.pagesScanned + 1 := by
  unfold pageMatchCount at h0
  simp only [searchPageByPageLoop]
  rw [hnp]
  rw [if_neg (by simp)]
  by_cases hb : (trimChars (textOf p)).isEmpty
  · rw [if_pos hb]
    exact ⟨⟨st.results, st.errors ++ [noTextMsg p], st.totalMatchCount, st.pagesScanned + 1⟩,
      rfl, rfl, rfl⟩
  · rw [if_neg hb]
    rw [if_neg hb] at h0
    cases hs : scanOf (textOf p) with
    | error e =>
      simp only [hs]
      exact ⟨⟨st.results, st.errors ++ [searchFailMsg p e], st.totalMatchCount,
        st.pagesScanned + 1⟩, rfl, rfl, rfl⟩
    | ok ms =>
      simp only [hs] at h0
      simp only [hs]
      rw [if_neg (by omega : ¬ 0 < ms.length)]
      exact ⟨⟨st.results, st.errors, st.totalMatchCount, st.pagesScanned + 1⟩, rfl, rfl, rfl⟩

theorem pbLoop_first_match_stops (textOf : Nat → List Char)
    (scanOf : List Char → Except String (List (Nat × Nat))) (ctx : Nat)
    (maxP : Option Nat) (p : Nat) (rest : List Nat) (st : PBState)
    (hm : 1 ≤ pageMatchCount textOf scanOf p)
    (hnp : limitHit maxP st.pagesScanned = false) :
    ∃ res errs,
      searchPageByPageLoop textOf scanOf ctx (some 1) maxP (p :: rest) st =
        ⟨res, errs, st.pagesScanned + 1, false, .max_results⟩ := by
  unfold pageMatchCount at hm
  simp only [searchPageByPageLoop]
  rw [hnp]
  rw [if_neg (by simp)]
  by_cases hb : (trimChars (textOf p)).isEmpty
  · rw [if_pos hb] at hm
    omega
  · rw [if_neg hb] at hm
    rw [if_neg hb]
    cases hs : scanOf (textOf p) with
    | error e =>
      simp only [hs] at hm
      omega
    | ok ms =>
      simp only [hs] at hm
      simp only [hs]
      rw [if_pos (by omega : 0 < ms.length)]
      rw [if_pos (by simp [limitHit]; omega)]
      exact ⟨_, _, rfl⟩

theorem comprehensive_characterization (textOf : Nat → List Char)
    (scanOf : List Char → Except String (List (Nat × Nat))) (ctx : Nat)
    (pages : List Nat) :
    searchPagesComprehensive textOf scanOf ctx pages =
      (pages.filterMap (pageEntry textOf scanOf ctx),
       pages.filterMap (pageErrorMsg textOf scanOf)) := by
  induction pages with
  | nil => rfl
  | cons p rest ih =>
    unfold searchPagesComprehensive
    rw [ih]
    by_cases hb : (trimChars (textOf p)).isEmpty
    · simp [pageEntry, pageErrorMsg, hb, List.filterMap_cons]
    · cases hs : scanOf (textOf p) with
      | error e => simp [pageEntry, pageErrorMsg, hb, hs, List.filterMap_cons]
      | ok ms =>
        by_cases hmm : 0 < ms.length
        · simp [pageEntry, pageErrorMsg, hb, hs, hmm, List.filterMap_cons]
        · simp [pageEntry, pageErrorMsg, hb, hs, hmm, List.filterMap_cons]

/-! ### Claims C2, C8 -/

/-- C2: the early-stopping strategy processes pages one at a time in order;
before a page it stops with `max_pages` once the page ceiling is reached;
an exhausted page list completes; and with `maxResults = 1` over pages
`[1..N]` whose first matching page is page 3, it stops with `max_results`
having scanned exactly 3 pages. -/
theorem C2_pageByPage_early_stopping
    (textOf : Nat → List Char) (scanOf : List Char → Except String (List (Nat × Nat)))
    (ctx N : Nat) (maxR maxP : Option Nat)
    (hN : 3 ≤ N)
    (h1 : pageMatchCount textOf scanOf 1 = 0)
    (h2 : pageMatchCount textOf scanOf 2 = 0)
    (h3 : 1 ≤ pageMatchCount textOf scanOf 3) :
    (∀ (st : PBState) (p : Nat) (rest : List Nat),
      limitHit maxP st.pagesScanned = true →
      searchPageByPageLoop textOf scanOf ctx maxR maxP (p :: rest) st =
        ⟨st.results, st.errors, st.pagesScanned, false, .max_pages⟩) ∧
    (∀ st : PBState,
      searchPageByPageLoop textOf scanOf ctx maxR maxP [] st =
        ⟨st.results, st.errors, st.pagesScanned, true, .completed⟩) ∧
    (∀ (st : PBState) (p : Nat) (rest : List Nat) (ms : List (Nat × Nat)),
      limitHit maxP st.pagesScanned = false →
      (trimChars (textOf p)).isEmpty = false →
      scanOf (textOf p) = .ok ms →
      0 < ms.length →
      limitHit maxR (st.totalMatchCount + ms.length) = true →
      searchPageByPageLoop textOf scanOf ctx maxR maxP (p :: rest) st =
        ⟨st.results ++ [⟨p, ms.length, mkSnippets (textOf p) ctx ms⟩], st.errors,
          st.pagesScanned + 1, false, .max_results⟩) ∧
    (searchPdfPageByPage textOf scanOf ctx (some 1) none (List.range' 1 N)).stoppedReason =
      .max_results ∧
    (searchPdfPageByPage textOf scanOf ctx (some 1) none (List.range' 1 N)).pagesScanned = 3 := by
  refine ⟨?_, ?_, ?_, ?_⟩
  · intro st p rest hstop
    simp only [searchPageByPageLoop]
    rw [hstop]
    simp
  · intro st
    simp only [searchPageByPageLoop]
  · intro st p rest ms hnp hb hs hlen hhit
    simp only [searchPageByPageLoop]
    rw [hnp]
    rw [if_neg (by simp)]
    rw [hb]
    rw [if_neg (by simp)]
    rw [hs]
    simp only
    rw [if_pos hlen, if_pos hhit]
  · obtain ⟨m, rfl⟩ : ∃ m, N = m + 3 := ⟨N - 3, by omega⟩
    have hr : List.range' 1 (m + 3) = 1 :: 2 :: 3 :: List.range' 4 m := by
      rw [show m + 3 = (m + 2) + 1 from by omega, List.range'_succ]
      rw [show m + 2 = (m + 1) + 1 from by omega, List.range'_succ]
      rw [show m + 1 = m + 1 from rfl, List.range'_succ]
    unfold searchPdfPageByPage
    rw [hr]
    obtain ⟨stA, hA, hAt, hAp⟩ :=
      pbLoop_zero_step textOf scanOf ctx (some 1) none 1 _ ⟨[], [], 0, 0⟩ h1 rfl
    rw [hA]
    obtain ⟨stB, hB, hBt, hBp⟩ :=
      pbLoop_zero_step textOf scanOf ctx (some 1) none 2 _ stA h2 rfl
    rw [hB]
    obtain ⟨res, errs, hC⟩ :=
      pbLoop_first_match_stops textOf scanOf ctx none 3 _ stB h3 rfl
    rw [hC]
    have hA1 : stA.pagesScanned = 1 := by rw [hAp]
    have hB1 : stB.pagesScanned = 2 := by rw [hBp, hA1]
    exact ⟨rfl, by simp [hB1]⟩

/-- Witness for C2: a document whose pages 1 and 2 are blank and whose page
3 has one match. -/
theorem C2_witness :
    (searchPdfPageByPage (fun p => if p = 3 then "abc".toList else [])
      (fun t => .ok (if t = "abc".toList then [(0, 1)] else [])) 10 (some 1) none
      (List.range' 1 5)).stoppedReason = .max_results ∧
    (searchPdfPageByPage (fun p => if p = 3 then "abc".toList else [])
      (fun t => .ok (if t = "abc".toList then [(0, 1)] else [])) 10 (some 1) none
      (List.range' 1 5)).pagesScanned = 3 := by
  have h := C2_pageByPage_early_stopping (fun p => if p = 3 then "abc".toList else [])
    (fun t => .ok (if t = "abc".toList then [(0, 1)] else [])) 10 5 none none
    (by omega) (by decide) (by decide) (by decide)
  exact ⟨h.2.2.2.1, h.2.2.2.2⟩

/-- C8: in the exhaustive strategy every page failure becomes an error entry
while successful pages still yield results, and they are returned together
with the full page count scanned; in the early-stopping strategy a failing
page appends its error entry and the loop continues with the remaining
pages. -/
theorem C8_per_page_failures_do_not_abort
    (textOf : Nat → List Char) (scanOf : List Char → Except String (List (Nat × Nat)))
    (ctx : Nat) (pages : List Nat) (maxR maxP : Option Nat) (st : PBState)
    (p : Nat) (rest : List Nat) (e : String) :
    ((searchPdfComprehensive textOf scanOf ctx pages).errors =
        pages.filterMap (pageErrorMsg textOf scanOf) ∧
      (searchPdfComprehensive textOf scanOf ctx pages).matchResults =
        pages.filterMap (pageEntry textOf scanOf ctx) ∧
      (searchPdfComprehensive textOf scanOf ctx pages).pagesScanned = pages.length) ∧
    (pageErrorMsg textOf scanOf p = some e →
      limitHit maxP st.pagesScanned = false →
      searchPageByPageLoop textOf scanOf ctx maxR maxP (p :: rest) st =
        searchPageByPageLoop textOf scanOf ctx maxR maxP rest
          ⟨st.results, st.errors ++ [e], st.totalMatchCount, st.pagesScanned + 1⟩) := by
  constructor
  · refine ⟨?_, ?_, rfl⟩
    · show (searchPagesComprehensive textOf scanOf ctx pages).2 = _
      rw [comprehensive_characterization]
    · show (searchPagesComprehensive textOf scanOf ctx pages).1 = _
      rw [comprehensive_characterization]
  · intro he hnp
    unfold pageErrorMsg at he
    simp only [searchPageByPageLoop]
    rw [hnp]
    rw [if_neg (by simp)]
    by_cases hb : (trimChars (textOf p)).isEmpty
    · rw [if_pos hb] at he
      rw [if_pos hb]
      have : e = noTextMsg p := (Option.some.inj he).symm
      rw [this]
    · rw [if_neg hb] at he
      rw [if_neg hb]
      cases hs : scanOf (textOf p) with
      | error msg =>
        rw [hs] at he
        simp only [hs]
        have : e = searchFailMsg p msg := (Option.some.inj he).symm
        rw [this]
      | ok ms =>
        rw [hs] at he
        exact absurd he (by simp)

/-- Witness for C8: page 1 has no extractable text; its error entry is
appended and the loop moves on to an empty remainder. -/
theorem C8_witness :
    searchPageByPageLoop (fun _ => []) (fun _ => .ok []) 10 none none [1] ⟨[], [], 0, 0⟩ =
      searchPageByPageLoop (fun _ => []) (fun _ => .ok []) 10 none none []
        ⟨[], [] ++ [noTextMsg 1], 0, 0 + 1⟩ :=
  (C8_per_page_failures_do_not_abort (fun _ => []) (fun _ => .ok []) 10 [] none none
    ⟨[], [], 0, 0⟩ 1 [] (noTextMsg 1)).2 (by decide) rfl



/-! ### OutlineNormalizer (index.ts `processOutlineItems` / `flattenOutlineItems`
/ `calculateOutlineStats`) -/

/-- Raw bookmark node as delivered by the backend (`pdfDoc.getOutline()`).
The destination object is abstracted as a string key; `parseDestination` is
abstracted as a `String → Option Nat` oracle. -/
inductive RawOutlineItem where
  | mk (title : String) (bold italic : Bool) (color : Option (Int × Int × Int))
      (url : Option String) (dest : Option String) (items : List RawOutlineItem)

/-- Processed outline node (interface `OutlineItem`, index.ts:829): title,
level, style flags, optional resolved page, optional destination, optional
url, and an optional child list (absent vs present-but-empty matters). -/
inductive OutlineItem where
  | mk (title : String) (level : Nat) (bold italic : Bool)
      (color : Option (Int × Int × Int)) (page : Option Nat)
      (destination : Option String) (url : Option String)
      (children : Option (List OutlineItem))

def OutlineItem.title : OutlineItem → String
  | .mk t _ _ _ _ _ _ _ _ => t

def OutlineItem.level : OutlineItem → Nat
  | .mk _ l _ _ _ _ _ _ _ => l

def OutlineItem.children : OutlineItem → Option (List OutlineItem)
  | .mk _ _ _ _ _ _ _ _ c => c

/-- JS truthiness of an optional string field (`if (item.url) ...`). -/
def jsStrOpt : Option String → Option String
  | some u => if u = "" then none else some u
  | none => none

def jsStrTruthy : Option String → Bool
  | some u => decide (u ≠ "")
  | none => false

/-- The depth guard `maxDepth !== undefined && level >= maxDepth` of
`processOutlineItems`. -/
def mdGuard (maxDepth : Option Nat) (level : Nat) : Bool :=
  match maxDepth with
  | some d => decide (d ≤ level)
  | none => false

/-- Embeds `processOutlineItems` (index.ts:883).  The source evaluates the
empty/`maxDepth` guard once per invocation and then loops over `items`; the
guard value is identical for every element of the same invocation (same
`level`), so re-checking it at each cons, as here, is the same function.
Children are processed at `level + 1`, and the `children` field is assigned
exactly when the raw child list is nonempty (possibly receiving `[]` after
depth truncation). -/
def processOutlineItems (rd : String → Option Nat) (incl : Bool) (md : Option Nat) :
    List RawOutlineItem → Nat → List OutlineItem
  | [], _ => []
  | .mk t b it co u dst ch :: rest, level =>
    if mdGuard md level then []
    else
      .mk t level b it co
          (if incl then dst.bind rd else none)
          (if incl then dst else none)
          (jsStrOpt u)
          (if 0 < ch.length then some (processOutlineItems rd incl md ch (level + 1))
           else none) ::
        processOutlineItems rd incl md rest level

/-- Embeds `flattenOutlineItems` (index.ts:953): emit a copy of the node
with the `children` field deleted, then recursively the children (when
present and nonempty), then the remaining siblings. -/
def flattenOutlineItems : List OutlineItem → List OutlineItem
  | [] => []
  | .mk t l b it co pg dn u ch :: rest =>
    .mk t l b it co pg dn u none ::
      ((match ch with
        | some cs => if 0 < cs.length then flattenOutlineItems cs else []
        | none => []) ++ flattenOutlineItems rest)

structure OutlineStats where
  total_items : Nat
  max_depth : Nat
  items_with_pages : Nat
  items_with_urls : Nat
deriving DecidableEq

/-- Embeds `calculateOutlineStats` (index.ts:974).  The source accumulates
into mutable counters during one traversal; counts are additive and
`max_depth` is a maximum, so the divide-and-combine form here computes the
same numbers. -/
def calculateOutlineStats : List OutlineItem → OutlineStats
  | [] => ⟨0, 0, 0, 0⟩
  | .mk _ l _ _ _ pg _ u ch :: rest =>
    let cstats : OutlineStats :=
      match ch with
      | some cs => if 0 < cs.length then calculateOutlineStats cs else ⟨0, 0, 0, 0⟩
      | none => ⟨0, 0, 0, 0⟩
    let rstats := calculateOutlineStats rest
    ⟨1 + cstats.total_items + rstats.total_items,
     max (max (l + 1) cstats.max_depth) rstats.max_depth,
     (if pg.isSome then 1 else 0) + cstats.items_with_pages + rstats.items_with_pages,
     (if jsStrTruthy u then 1 else 0) + cstats.items_with_urls + rstats.items_with_urls⟩

/-- Pre-order flattening as the spec words it (for comparison with
`flattenOutlineItems`): emit the node with its `children` field stripped and
its original `level` kept, then its children, then its siblings. -/
def preorderFlatten : List OutlineItem → List OutlineItem
  | [] => []
  | .mk t l b it co pg dn u ch :: rest =>
    .mk t l b it co pg dn u none ::
      ((match ch with
        | some cs => preorderFlatten cs
        | none => []) ++ preorderFlatten rest)

/-! ### Helper lemmas for the outline normalizer -/

theorem flatten_eq_preorder (items : List OutlineItem) :
    flattenOutlineItems items = preorderFlatten items := by
  induction items using flattenOutlineItems.induct with
  | case1 => simp [flattenOutlineItems, preorderFlatten]
  | case2 t l b it co pg dn u ch rest ih1 ih2 =>
    cases ch with
    | none => simp only [flattenOutlineItems, preorderFlatten]; rw [ih2]
    | some cs =>
      simp only at ih1
      cases cs with
      | nil => simp [flattenOutlineItems, preorderFlatten, ih2]
      | cons x xs =>
        simp only [flattenOutlineItems, preorderFlatten, List.length_cons]
        rw [if_pos (by omega)]
        rw [ih1, ih2]

theorem preorderFlatten_children_none (items : List OutlineItem) :
    ∀ x ∈ preorderFlatten items, x.children = none := by
  induction items using preorderFlatten.induct with
  | case1 => simp [preorderFlatten]
  | case2 t l b it co pg dn u ch rest ih1 ih2 =>
    intro x hx
    cases ch with
    | none =>
      simp only [preorderFlatten] at hx
      rcases List.mem_cons.mp hx with rfl | hx2
      · rfl
      · rcases List.mem_append.mp hx2 with hx3 | hx3
        · exact absurd hx3 (List.not_mem_nil x)
        · exact ih2 x hx3
    | some cs =>
      simp only at ih1
      simp only [preorderFlatten] at hx
      rcases List.mem_cons.mp hx with rfl | hx2
      · rfl
      · rcases List.mem_append.mp hx2 with hx3 | hx3
        · exact ih1 x hx3
        · exact ih2 x hx3

/-- Truncation at the child level: at `level = 1` with `maxDepth = 1` the
guard fires for any nonempty list. -/
theorem processOutlineItems_depth1 (rd : String → Option Nat) (incl : Bool)
    (ch : List RawOutlineItem) :
    processOutlineItems rd incl (some 1) ch 1 = [] := by
  cases ch with
  | nil => simp [processOutlineItems]
  | cons a rest =>
    cases a with
    | mk t b it co u dst items => simp [processOutlineItems, mdGuard]



/-! ### Claims C1, C9 -/

def rawThreeLevel : List RawOutlineItem :=
  [.mk "root" false false none none none
    [.mk "child" false false none none none
      [.mk "grandchild" false false none none none []]]]

/-- C1 counterexample: on a 3-level bookmark tree, `maxDepth = 1` drops the
first-child level too (the guard `level >= maxDepth` fires at level 1): the
output is only the root, with an emptied child list, and `total_items = 1` —
not the top-level-plus-first-child shape (with `total_items = 2`) the claim
asserts. -/
theorem C1_counterexample :
    processOutlineItems (fun _ => none) true (some 1) rawThreeLevel 0 =
      [OutlineItem.mk "root" 0 false false none none none none (some [])] ∧
    (calculateOutlineStats
        (processOutlineItems (fun _ => none) true (some 1) rawThreeLevel 0)).total_items = 1 ∧
    ∀ x ∈ processOutlineItems (fun _ => none) true (some 1) rawThreeLevel 0,
      OutlineItem.title x ≠ "child" := by
  have h : processOutlineItems (fun _ => none) true (some 1) rawThreeLevel 0 =
      [OutlineItem.mk "root" 0 false false none none none none (some [])] := by
    simp [rawThreeLevel, processOutlineItems, mdGuard, jsStrOpt]
  refine ⟨h, ?_, ?_⟩
  · rw [h]
    simp [calculateOutlineStats]
  · rw [h]
    intro x hx
    rcases List.mem_singleton.mp hx with rfl
    simp [OutlineItem.title]

/-- The top-level shape produced by `maxDepth = 1`: the node itself is kept
at level 0, and its raw child list collapses to an empty (but present)
`children` field when nonempty. -/
def topOnlyItem (rd : String → Option Nat) (incl : Bool) : RawOutlineItem → OutlineItem
  | .mk t b it co u dst ch =>
    .mk t 0 b it co (if incl then dst.bind rd else none) (if incl then dst else none)
      (jsStrOpt u) (if 0 < ch.length then some [] else none)

/-- C1 amended: outline normalization with `maxDepth = 1` keeps only the
top-level nodes (each with its child list truncated to empty); first-children
and grandchildren are both absent from the output, and `total_items` counts
exactly the top-level nodes. -/
theorem C1_amended_maxDepth_one_top_only (rd : String → Option Nat) (incl : Bool)
    (items : List RawOutlineItem) :
    processOutlineItems rd incl (some 1) items 0 = items.map (topOnlyItem rd incl) ∧
    (calculateOutlineStats (processOutlineItems rd incl (some 1) items 0)).total_items =
      items.length := by
  have hmain : ∀ its : List RawOutlineItem,
      processOutlineItems rd incl (some 1) its 0 = its.map (topOnlyItem rd incl) := by
    intro its
    induction its with
    | nil => simp [processOutlineItems]
    | cons a rest ih =>
      cases a with
      | mk t b it co u dst ch =>
        simp only [processOutlineItems, mdGuard, List.map_cons, Nat.zero_add]
        rw [processOutlineItems_depth1]
        rw [ih]
        simp [topOnlyItem]
  refine ⟨hmain items, ?_⟩
  rw [hmain items]
  induction items with
  | nil => simp [calculateOutlineStats]
  | cons a rest ih =>
    cases a with
    | mk t b it co u dst ch =>
      by_cases hch : 0 < ch.length
      · simp only [List.map_cons, topOnlyItem, if_pos hch]
        simp only [calculateOutlineStats]
        simp only [List.length_nil, List.length_cons]
        rw [if_neg (by omega : ¬ 0 < (0 : Nat))]
        simp only [OutlineStats.total_items] at ih ⊢
        omega
      · simp only [List.map_cons, topOnlyItem, if_neg hch]
        simp only [calculateOutlineStats]
        simp only [List.length_cons]
        simp only [OutlineStats.total_items] at ih ⊢
        omega

/-- A 2-level outline: 3 top-level nodes, each with 2 children. -/
def twoLevelTree : List OutlineItem :=
  [.mk "A" 0 false false none none none none
      (some [.mk "A1" 1 false false none none none none none,
            .mk "A2" 1 false false none none none none none]),
   .mk "B" 0 false false none none none none
      (some [.mk "B1" 1 false false none none none none none,
            .mk "B2" 1 false false none none none none none]),
   .mk "C" 0 false false none none none none
      (some [.mk "C1" 1 false false none none none none none,
            .mk "C2" 1 false false none none none none none])]

/-- C9: flattening an outline forest is exactly pre-order traversal with the
`children` field stripped and each node keeping its original `level`; on a
2-level tree of 3 top-level nodes with 2 children each it yields 9 items in
pre-order. -/
theorem C9_flatten_is_preorder (items : List OutlineItem) :
    flattenOutlineItems items = preorderFlatten items ∧
    (∀ x ∈ flattenOutlineItems items, OutlineItem.children x = none) ∧
    flattenOutlineItems twoLevelTree =
      [.mk "A" 0 false false none none none none none,
       .mk "A1" 1 false false none none none none none,
       .mk "A2" 1 false false none none none none none,
       .mk "B" 0 false false none none none none none,
       .mk "B1" 1 false false none none none none none,
       .mk "B2" 1 false false none none none none none,
       .mk "C" 0 false false none none none none none,
       .mk "C1" 1 false false none none none none none,
       .mk "C2" 1 false false none none none none none] ∧
    (flattenOutlineItems twoLevelTree).map OutlineItem.level =
      [0, 1, 1, 0, 1, 1, 0, 1, 1] := by
  refine ⟨flatten_eq_preorder items, ?_, ?_, ?_⟩
  · rw [flatten_eq_preorder]
    exact preorderFlatten_children_none items
  · simp [twoLevelTree, flattenOutlineItems]
  · simp [twoLevelTree, flattenOutlineItems, OutlineItem.level]



/-- Witness for C9: the first emitted node of the concrete flattening has no
`children` field. -/
theorem C9_witness :
    OutlineItem.children (OutlineItem.mk "A" 0 false false none none none none none) = none :=
  (C9_flatten_is_preorder twoLevelTree).2.1
    (OutlineItem.mk "A" 0 false false none none none none none)
    (by simp [flattenOutlineItems, twoLevelTree])


end PdfAgent
